import Mathlib

/-!
Verification of the wavetable synthesiser in
`Source/SynthUsingMidiInputTutorial_01.h`.

The C++ classes `WavetableOscillator`, `SineWaveSound` and `SineWaveVoice`
are embedded shallowly:

* floats and doubles are modelled as exact rationals (`ℚ`);
* the single-channel wavetable buffer is a function `ℕ → ℚ` together with
  the oscillator's `tableSize` (`wavetable.getNumSamples() - 1`);
* the multi-channel output buffer is a function `ℕ → ℕ → ℚ`
  (channel index, then sample position);
* `std::sin` and `juce::MathConstants<double>::twoPi` live outside the
  repository, so wavetable creation is parametrised by an arbitrary
  function `sinf : ℚ → ℚ` and an arbitrary constant `twoPi : ℚ`;
* `juce::MidiMessage::getMidiNoteInHertz` is likewise a parameter
  `noteInHertz : ℕ → ℚ`;
* the JUCE base-class note bookkeeping (`clearCurrentNote`, the note a
  voice is currently sounding) is modelled by an `Option ℕ` field:
  `none` means the note is cleared;
* member functions that mutate the object become functions from the old
  state to the new state.
-/

namespace Synth

/-- State of `WavetableOscillator`: the two mutable fields
`currentIndex` and `tableDelta` (both `float` in the C++, modelled as `ℚ`).
The referenced wavetable and the derived constant `tableSize` are passed
as parameters to the member functions. -/
structure OscState where
  currentIndex : ℚ
  tableDelta : ℚ
  deriving DecidableEq, Repr

/-- `WavetableOscillator::setFrequency`: `tableDelta = frequency * (tableSize / sampleRate)`. -/
def setFrequency (tableSize : ℕ) (frequency sampleRate : ℚ) (o : OscState) : OscState :=
  let tableSizeOverSampleRate : ℚ := (tableSize : ℚ) / sampleRate
  { o with tableDelta := frequency * tableSizeOverSampleRate }

/-- `WavetableOscillator::getNextSample`, returning the produced sample and
the new oscillator state.  The C++ body is

```
auto index0 = (unsigned int) currentIndex;   -- truncation of a non-negative float
auto index1 = index0 + 1;
auto value0 = table[index0];
auto value1 = table[index1];
auto currentSample = value0 + 1 * (value1 - value0);   -- note the literal 1
if ((currentIndex += tableDelta) > (float) tableSize)
    currentIndex -= (float) tableSize;
return currentSample;
```

The `(unsigned int)` cast of a non-negative `float` truncates, i.e. takes
the floor; it is modelled by `Int.toNat ∘ Int.floor`. -/
def getNextSample (wt : ℕ → ℚ) (tableSize : ℕ) (o : OscState) : ℚ × OscState :=
  let index0 : ℕ := (⌊o.currentIndex⌋).toNat
  let index1 : ℕ := index0 + 1
  let value0 := wt index0
  let value1 := wt index1
  let currentSample := value0 + 1 * (value1 - value0)
  let advanced := o.currentIndex + o.tableDelta
  let newIndex := if advanced > (tableSize : ℚ) then advanced - (tableSize : ℚ) else advanced
  (currentSample, { o with currentIndex := newIndex })

/-- State of `SineWaveVoice`: the two `double` members `level` and
`tailOff`, the `bool` member `notePlaying`, the JUCE base-class record of
the note being sounded (`none` after `clearCurrentNote`), and the state of
the owned `WavetableOscillator`. -/
structure VoiceState where
  level : ℚ
  tailOff : ℚ
  notePlaying : Bool
  currentNote : Option ℕ
  osc : OscState
  deriving DecidableEq, Repr

/-- JUCE `SynthesiserVoice::clearCurrentNote`: forgets the note the voice
was sounding. -/
def clearCurrentNote (v : VoiceState) : VoiceState :=
  { v with currentNote := none }

/-- `SineWaveVoice::startNote`.  The fresh `WavetableOscillator` starts
with `currentIndex = 0` and `tableDelta = 0`, then `setFrequency` is
called with the note frequency and the sample rate; the surrounding JUCE
synthesiser records the started note on the voice. -/
def startNote (tableSize : ℕ) (midiNoteNumber : ℕ) (velocity : ℚ)
    (noteInHertz : ℕ → ℚ) (sampleRate : ℚ) (_v : VoiceState) : VoiceState :=
  let osc0 : OscState := { currentIndex := 0, tableDelta := 0 }
  { level := velocity * (25/1000)
    tailOff := 0
    notePlaying := true
    currentNote := some midiNoteNumber
    osc := setFrequency tableSize (noteInHertz midiNoteNumber) sampleRate osc0 }

/-- `SineWaveVoice::stopNote` (the `velocity` argument is unused in the
C++ and omitted):

```
if (allowTailOff) { if (tailOff == 0.0) tailOff = 1.0; }
else { clearCurrentNote(); notePlaying = false; }
``` -/
def stopNote (allowTailOff : Bool) (v : VoiceState) : VoiceState :=
  if allowTailOff then
    if v.tailOff = 0 then { v with tailOff := 1 } else v
  else
    { clearCurrentNote v with notePlaying := false }

/-- The harmonic configuration of `SineWaveSound::createWavetable`:
`int harmonics[] = { 1, 2, 3, 4, 5, 6, 7, 8 };`. -/
def harmonics : List ℕ := [1, 2, 3, 4, 5, 6, 7, 8]

namespace SineWaveSound

/-- `SineWaveSound`'s `const unsigned int tableSize = 1 << 24`. -/
def tableSize : ℕ := 2 ^ 24

end SineWaveSound

/-- The running angle of the inner loop of `createWavetable`:
`currentAngle` starts at `0.0` and is incremented by `angleDelta` once per
sample position, so `angleSeq angleDelta i` is its value when position `i`
is written. -/
def angleSeq (angleDelta : ℚ) : ℕ → ℚ
  | 0 => 0
  | i + 1 => angleSeq angleDelta i + angleDelta

/-- One pass of the outer loop of `createWavetable` for the harmonic at
position `harmonic` of the configuration array: every position
`i < tableSize` gets `sin (currentAngle) / (harmonic + 1)` added, and then
the guard sample is written: `samples[tableSize] = samples[0]`. -/
def harmonicPass (sinf : ℚ → ℚ) (tableSize : ℕ) (angleDelta : ℚ) (harmonic : ℕ)
    (samples : ℕ → ℚ) : ℕ → ℚ :=
  let afterInner : ℕ → ℚ := fun i =>
    if i < tableSize then samples i + sinf (angleSeq angleDelta i) / ((harmonic : ℚ) + 1)
    else samples i
  fun i => if i = tableSize then afterInner 0 else afterInner i

/-- The wavetable after the first `k` passes of the outer loop of
`createWavetable`, starting from the cleared buffer (`waveTable.clear()`).
Pass `k` uses `angleDelta = twoPi / (tableSize - 1) * harmonics[k]`. -/
def createWavetableAux (sinf : ℚ → ℚ) (twoPi : ℚ) (tableSize : ℕ) : ℕ → (ℕ → ℚ)
  | 0 => fun _ => 0
  | k + 1 =>
    let angleDelta : ℚ := twoPi / ((tableSize : ℚ) - 1) * ((harmonics.getD k 0 : ℕ) : ℚ)
    harmonicPass sinf tableSize angleDelta k (createWavetableAux sinf twoPi tableSize k)

/-- `SineWaveSound::createWavetable`: all `numElementsInArray (harmonics)`
passes of the outer loop. -/
def createWavetable (sinf : ℚ → ℚ) (twoPi : ℚ) (tableSize : ℕ) : ℕ → ℚ :=
  createWavetableAux sinf twoPi tableSize harmonics.length

/-- The inner channel loop of `renderNextBlock`:
`for (auto i = outputBuffer.getNumChannels(); --i >= 0;)
     outputBuffer.addSample (i, startSample, currentSample);`
JUCE `addSample` adds (`+=`) into the buffer; the loop touches the
channels `numChannels - 1, …, 0`, each once. -/
def addChannels (numChannels : ℕ) (pos : ℕ) (value : ℚ)
    (buf : ℕ → ℕ → ℚ) : ℕ → ℕ → ℚ :=
  match numChannels with
  | 0 => buf
  | c + 1 =>
    let buf' := addChannels c pos value buf
    fun ch p => if ch = c ∧ p = pos then buf' ch p + value else buf' ch p

/-- The tail-off branch of `renderNextBlock`
(`while (--numSamples >= 0) { … }` with `tailOff > 0.0`): each iteration
renders `osc->getNextSample() * level * tailOff` into every channel at
`startSample`, increments `startSample`, multiplies `tailOff` by `0.99`,
and breaks — clearing the note and resetting `notePlaying` — as soon as
`tailOff <= 0.005`. -/
def renderTailLoop (wt : ℕ → ℚ) (tableSize numChannels : ℕ) :
    ℕ → VoiceState → (ℕ → ℕ → ℚ) → ℕ → VoiceState × (ℕ → ℕ → ℚ)
  | 0, v, buf, _ => (v, buf)
  | numSamples + 1, v, buf, startSample =>
    let s := getNextSample wt tableSize v.osc
    let currentSample := s.1 * v.level * v.tailOff
    let buf' := addChannels numChannels startSample currentSample buf
    let t' := v.tailOff * (99/100)
    if t' ≤ 5/1000 then
      ({ clearCurrentNote { v with tailOff := t', osc := s.2 } with notePlaying := false },
        buf')
    else
      renderTailLoop wt tableSize numChannels numSamples
        { v with tailOff := t', osc := s.2 } buf' (startSample + 1)

/-- The sustain branch of `renderNextBlock` (`tailOff == 0.0`): each
iteration renders `osc->getNextSample() * level` into every channel at
`startSample` and increments `startSample`. -/
def renderSustainLoop (wt : ℕ → ℚ) (tableSize numChannels : ℕ) :
    ℕ → VoiceState → (ℕ → ℕ → ℚ) → ℕ → VoiceState × (ℕ → ℕ → ℚ)
  | 0, v, buf, _ => (v, buf)
  | numSamples + 1, v, buf, startSample =>
    let s := getNextSample wt tableSize v.osc
    let currentSample := s.1 * v.level
    let buf' := addChannels numChannels startSample currentSample buf
    renderSustainLoop wt tableSize numChannels numSamples
      { v with osc := s.2 } buf' (startSample + 1)

/-- `SineWaveVoice::renderNextBlock`: nothing happens unless
`notePlaying`; otherwise the tail-off or the sustain loop runs. -/
def renderNextBlock (wt : ℕ → ℚ) (tableSize numChannels : ℕ) (v : VoiceState)
    (buf : ℕ → ℕ → ℚ) (startSample numSamples : ℕ) :
    VoiceState × (ℕ → ℕ → ℚ) :=
  if v.notePlaying then
    if v.tailOff > 0 then
      renderTailLoop wt tableSize numChannels numSamples v buf startSample
    else
      renderSustainLoop wt tableSize numChannels numSamples v buf startSample
  else (v, buf)

/-- The oscillator state after `j` calls to `getNextSample`. -/
def oscIter (wt : ℕ → ℚ) (tableSize : ℕ) (o : OscState) : ℕ → OscState
  | 0 => o
  | j + 1 => (getNextSample wt tableSize (oscIter wt tableSize o j)).2

/-- The sample produced by the `(j+1)`-st call to `getNextSample`. -/
def oscSample (wt : ℕ → ℚ) (tableSize : ℕ) (o : OscState) (j : ℕ) : ℚ :=
  (getNextSample wt tableSize (oscIter wt tableSize o j)).1

/-- How many samples the tail-off loop writes before stopping, starting
from `tailOff = t` with `numSamples` iterations available: the loop always
writes the current sample first, and stops early as soon as the decayed
`tailOff` reaches `0.005` or below. -/
def tailCount (t : ℚ) : ℕ → ℕ
  | 0 => 0
  | numSamples + 1 =>
    if t * (99/100) ≤ 5/1000 then 1 else 1 + tailCount (t * (99/100)) numSamples

/-- Whether the tail-off loop hits the silence threshold (and hence clears
the note) within `numSamples` iterations, starting from `tailOff = t`. -/
def tailStops (t : ℚ) : ℕ → Bool
  | 0 => false
  | numSamples + 1 =>
    if t * (99/100) ≤ 5/1000 then true else tailStops (t * (99/100)) numSamples

/-- A linear-ramp wavetable `table[i] = i`, used for concrete evaluations. -/
def wtLin : ℕ → ℚ := fun i => (i : ℚ)

/-- A voice that is mid-release: `tailOff = 1`, still playing note 60. -/
def releasingVoice : VoiceState :=
  { level := 1/40
    tailOff := 1
    notePlaying := true
    currentNote := some 60
    osc := { currentIndex := 0, tableDelta := 0 } }

/-- An idle voice: not playing, note cleared. -/
def idleVoice : VoiceState :=
  { level := 0
    tailOff := 0
    notePlaying := false
    currentNote := none
    osc := { currentIndex := 0, tableDelta := 0 } }

/-- The all-zero output buffer, for concrete render calls. -/
def zeroBuf : ℕ → ℕ → ℚ := fun _ _ => 0

/-! ### Channel-loop and tail-off helper lemmas -/

/-- Pointwise description of the channel loop: it adds `value` exactly at
position `pos` on every channel below `numChannels`, and touches nothing
else. -/
theorem addChannels_apply (numChannels pos : ℕ) (value : ℚ)
    (buf : ℕ → ℕ → ℚ) (ch p : ℕ) :
    addChannels numChannels pos value buf ch p =
      if ch < numChannels ∧ p = pos then buf ch p + value else buf ch p := by
  induction numChannels with
  | zero => simp [addChannels]
  | succ c ih =>
    simp only [addChannels, ih]
    by_cases hp : p = pos
    · subst hp
      by_cases hc : ch = c
      · subst hc
        simp [Nat.lt_irrefl, Nat.lt_succ_self]
      · have : ch < c + 1 ↔ ch < c := by omega
        simp [hc, this]
    · simp [hp]

/-- The channel loop adds to the old buffer exactly what it would write
into a zero buffer. -/
theorem addChannels_additive (numChannels pos : ℕ) (value : ℚ)
    (buf : ℕ → ℕ → ℚ) (ch p : ℕ) :
    addChannels numChannels pos value buf ch p =
      buf ch p + addChannels numChannels pos value (fun _ _ => 0) ch p := by
  rw [addChannels_apply, addChannels_apply]
  split_ifs <;> ring

/-- Iterating the oscillator from the state after one step is the same as
iterating one step further from the start. -/
theorem oscIter_shift (wt : ℕ → ℚ) (tableSize : ℕ) (o : OscState) (j : ℕ) :
    oscIter wt tableSize ((getNextSample wt tableSize o).2) j =
      oscIter wt tableSize o (j + 1) := by
  induction j with
  | zero => rfl
  | succ j ih => simp only [oscIter, ih]

/-- The `j`-th sample after one oscillator step is the `(j+1)`-st sample
from the start. -/
theorem oscSample_shift (wt : ℕ → ℚ) (tableSize : ℕ) (o : OscState) (j : ℕ) :
    oscSample wt tableSize ((getNextSample wt tableSize o).2) j =
      oscSample wt tableSize o (j + 1) := by
  simp only [oscSample, oscIter_shift]

/-- The tail-off loop never writes more samples than it is given. -/
theorem tailCount_le (t : ℚ) (num : ℕ) : tailCount t num ≤ num := by
  induction num generalizing t with
  | zero => simp [tailCount]
  | succ n ih =>
    simp only [tailCount]
    split_ifs
    · omega
    · have := ih (t * (99/100))
      omega

/-- If the loop stops early, the decayed `tailOff` at the moment of
stopping has indeed reached the silence threshold. -/
theorem tailStops_threshold (t : ℚ) (num : ℕ) (h : tailStops t num = true) :
    t * (99/100) ^ tailCount t num ≤ 5/1000 := by
  induction num generalizing t with
  | zero => simp [tailStops] at h
  | succ n ih =>
    simp only [tailStops] at h
    simp only [tailCount]
    split_ifs at h ⊢ with hs
    · rw [pow_one]; exact hs
    · have := ih (t * (99/100)) h
      calc t * (99/100) ^ (1 + tailCount (t * (99/100)) n)
          = t * (99/100) * (99/100) ^ tailCount (t * (99/100)) n := by ring
        _ ≤ 5/1000 := this

/-- Strict minimality of the stopping point: before the write at which
the loop stops, the decayed `tailOff` is still above the threshold. -/
theorem tailCount_minimal (t : ℚ) (num : ℕ) :
    ∀ j, 0 < j → j < tailCount t num → ¬ (t * (99/100) ^ j ≤ 5/1000) := by
  induction num generalizing t with
  | zero => simp [tailCount]
  | succ n ih =>
    intro j hj0 hj
    simp only [tailCount] at hj
    split_ifs at hj with hs
    · omega
    · match j, hj0 with
      | 1, _ => rw [pow_one]; exact hs
      | j + 2, _ =>
        have hlt : j + 1 < tailCount (t * (99/100)) n := by omega
        have := ih (t * (99/100)) (j + 1) (by omega) hlt
        intro hc
        exact this (by calc t * (99/100) * (99/100) ^ (j + 1)
              = t * (99/100) ^ (j + 2) := by ring
            _ ≤ 5/1000 := hc)

/-- If the loop never hits the threshold, it writes all `num` samples. -/
theorem tailStops_false_count (t : ℚ) (num : ℕ) (h : tailStops t num = false) :
    tailCount t num = num := by
  induction num generalizing t with
  | zero => simp [tailCount]
  | succ n ih =>
    simp only [tailStops] at h
    simp only [tailCount]
    split_ifs at h ⊢ with hs
    rw [ih (t * (99/100)) h]
    omega

/-! ### Render-loop frame and additivity lemmas -/

/-- The tail-off loop leaves every buffer entry at a position outside
`[startSample, startSample + numSamples)` unchanged. -/
theorem renderTailLoop_frame (wt : ℕ → ℚ) (tableSize numChannels : ℕ)
    (numSamples : ℕ) :
    ∀ (v : VoiceState) (buf : ℕ → ℕ → ℚ) (startSample ch p : ℕ),
      p < startSample ∨ startSample + numSamples ≤ p →
      (renderTailLoop wt tableSize numChannels numSamples v buf startSample).2 ch p =
        buf ch p := by
  induction numSamples with
  | zero => intro v buf start ch p _; rfl
  | succ n ih =>
    intro v buf start ch p hp
    simp only [renderTailLoop]
    split_ifs with hs
    · dsimp only
      rw [addChannels_apply, if_neg]
      rintro ⟨-, rfl⟩
      omega
    · rw [ih _ _ _ _ _ (by omega), addChannels_apply, if_neg]
      rintro ⟨-, rfl⟩
      omega

/-- The sustain loop leaves every buffer entry at a position outside
`[startSample, startSample + numSamples)` unchanged. -/
theorem renderSustainLoop_frame (wt : ℕ → ℚ) (tableSize numChannels : ℕ)
    (numSamples : ℕ) :
    ∀ (v : VoiceState) (buf : ℕ → ℕ → ℚ) (startSample ch p : ℕ),
      p < startSample ∨ startSample + numSamples ≤ p →
      (renderSustainLoop wt tableSize numChannels numSamples v buf startSample).2 ch p =
        buf ch p := by
  induction numSamples with
  | zero => intro v buf start ch p _; rfl
  | succ n ih =>
    intro v buf start ch p hp
    simp only [renderSustainLoop]
    rw [ih _ _ _ _ _ (by omega), addChannels_apply, if_neg]
    rintro ⟨-, rfl⟩
    omega

/-- The tail-off loop only ever adds: its output at any entry is the old
entry plus exactly what the same call deposits into a zero buffer. -/
theorem renderTailLoop_additive (wt : ℕ → ℚ) (tableSize numChannels : ℕ)
    (numSamples : ℕ) :
    ∀ (v : VoiceState) (buf : ℕ → ℕ → ℚ) (startSample ch p : ℕ),
      (renderTailLoop wt tableSize numChannels numSamples v buf startSample).2 ch p =
        buf ch p +
          (renderTailLoop wt tableSize numChannels numSamples v
            (fun _ _ => 0) startSample).2 ch p := by
  induction numSamples with
  | zero => intro v buf start ch p; simp [renderTailLoop]
  | succ n ih =>
    intro v buf start ch p
    simp only [renderTailLoop]
    split_ifs with hs
    · exact addChannels_additive _ _ _ _ _ _
    · rw [ih _ (addChannels numChannels start _ buf) _ ch p,
        ih _ (addChannels numChannels start _ (fun _ _ => 0)) _ ch p,
        addChannels_additive]
      ring

/-- The sustain loop only ever adds: its output at any entry is the old
entry plus exactly what the same call deposits into a zero buffer. -/
theorem renderSustainLoop_additive (wt : ℕ → ℚ) (tableSize numChannels : ℕ)
    (numSamples : ℕ) :
    ∀ (v : VoiceState) (buf : ℕ → ℕ → ℚ) (startSample ch p : ℕ),
      (renderSustainLoop wt tableSize numChannels numSamples v buf startSample).2 ch p =
        buf ch p +
          (renderSustainLoop wt tableSize numChannels numSamples v
            (fun _ _ => 0) startSample).2 ch p := by
  induction numSamples with
  | zero => intro v buf start ch p; simp [renderSustainLoop]
  | succ n ih =>
    intro v buf start ch p
    simp only [renderSustainLoop]
    rw [ih _ (addChannels numChannels start _ buf) _ ch p,
      ih _ (addChannels numChannels start _ (fun _ _ => 0)) _ ch p,
      addChannels_additive]
    ring

/-- Full characterisation of one run of the tail-off loop: frame at and
beyond the stopping point, the exact mixed value of every written sample,
the decayed final `tailOff`, and the Idle transition when the silence
threshold is hit. -/
theorem renderTailLoop_spec (wt : ℕ → ℚ) (tableSize numChannels : ℕ)
    (numSamples : ℕ) :
    ∀ (v : VoiceState) (buf : ℕ → ℕ → ℚ) (startSample : ℕ),
      (∀ ch p, p < startSample ∨ startSample + tailCount v.tailOff numSamples ≤ p →
        (renderTailLoop wt tableSize numChannels numSamples v buf startSample).2 ch p =
          buf ch p) ∧
      (∀ j, j < tailCount v.tailOff numSamples → ∀ ch, ch < numChannels →
        (renderTailLoop wt tableSize numChannels numSamples v buf startSample).2 ch
            (startSample + j) =
          buf ch (startSample + j) +
            oscSample wt tableSize v.osc j * v.level * (v.tailOff * (99/100) ^ j)) ∧
      (renderTailLoop wt tableSize numChannels numSamples v buf startSample).1.tailOff =
        v.tailOff * (99/100) ^ tailCount v.tailOff numSamples ∧
      (tailStops v.tailOff numSamples = true →
        (renderTailLoop wt tableSize numChannels numSamples v buf
            startSample).1.notePlaying = false ∧
        (renderTailLoop wt tableSize numChannels numSamples v buf
            startSample).1.currentNote = none) := by
  induction numSamples with
  | zero =>
    intro v buf start
    refine ⟨fun ch p _ => rfl, fun j hj => by simp [tailCount] at hj,
      by simp [renderTailLoop, tailCount], fun h => by simp [tailStops] at h⟩
  | succ n ih =>
    intro v buf start
    by_cases hs : v.tailOff * (99/100) ≤ 5/1000
    · have hk : tailCount v.tailOff (n + 1) = 1 := by simp [tailCount, hs]
      have hloop : renderTailLoop wt tableSize numChannels (n + 1) v buf start =
          ({ level := v.level, tailOff := v.tailOff * (99/100), notePlaying := false,
             currentNote := none, osc := (getNextSample wt tableSize v.osc).2 },
           addChannels numChannels start
             ((getNextSample wt tableSize v.osc).1 * v.level * v.tailOff) buf) := by
        simp only [renderTailLoop]
        rw [if_pos hs]
        rfl
      refine ⟨?_, ?_, ?_, ?_⟩
      · intro ch p hp
        rw [hk] at hp
        rw [hloop]
        dsimp only
        rw [addChannels_apply, if_neg]
        rintro ⟨-, rfl⟩
        omega
      · intro j hj ch hch
        rw [hk] at hj
        have hj0 : j = 0 := by omega
        subst hj0
        rw [hloop]
        dsimp only
        rw [addChannels_apply, if_pos ⟨hch, rfl⟩]
        simp only [oscSample, oscIter, pow_zero]
        ring
      · rw [hloop, hk]
        dsimp only
        rw [pow_one]
      · intro _
        rw [hloop]
        exact ⟨rfl, rfl⟩
    · have hk : tailCount v.tailOff (n + 1) =
          1 + tailCount (v.tailOff * (99/100)) n := by simp [tailCount, hs]
      have hts : tailStops v.tailOff (n + 1) =
          tailStops (v.tailOff * (99/100)) n := by simp [tailStops, hs]
      have hloop : renderTailLoop wt tableSize numChannels (n + 1) v buf start =
          renderTailLoop wt tableSize numChannels n
            { v with tailOff := v.tailOff * (99/100),
                     osc := (getNextSample wt tableSize v.osc).2 }
            (addChannels numChannels start
              ((getNextSample wt tableSize v.osc).1 * v.level * v.tailOff) buf)
            (start + 1) := by
        simp only [renderTailLoop]
        rw [if_neg hs]
      obtain ⟨iha, ihb, ihc, ihd⟩ :=
        ih { v with tailOff := v.tailOff * (99/100),
                    osc := (getNextSample wt tableSize v.osc).2 }
          (addChannels numChannels start
            ((getNextSample wt tableSize v.osc).1 * v.level * v.tailOff) buf)
          (start + 1)
      dsimp only at iha ihb ihc ihd
      refine ⟨?_, ?_, ?_, ?_⟩
      · intro ch p hp
        rw [hk] at hp
        rw [hloop, iha ch p (by omega), addChannels_apply, if_neg]
        rintro ⟨-, rfl⟩
        omega
      · intro j hj ch hch
        rw [hk] at hj
        rw [hloop]
        match j with
        | 0 =>
          rw [iha ch (start + 0) (by omega), addChannels_apply,
            if_pos ⟨hch, by omega⟩]
          simp only [oscSample, oscIter, pow_zero]
          ring
        | j + 1 =>
          have hpos : start + (j + 1) = (start + 1) + j := by omega
          rw [hpos, ihb j (by omega) ch hch, addChannels_apply, if_neg,
            oscSample_shift]
          · ring
          · rintro ⟨-, h⟩
            omega
      · rw [hloop, ihc, hk]
        ring
      · intro h
        rw [hts] at h
        rw [hloop]
        exact ihd h

/-! ### Wavetable creation lemmas -/

/-- The incrementally accumulated angle equals `i * angleDelta`. -/
theorem angleSeq_eq (angleDelta : ℚ) (i : ℕ) :
    angleSeq angleDelta i = (i : ℚ) * angleDelta := by
  induction i with
  | zero => simp [angleSeq]
  | succ i ih => simp [angleSeq, ih]; ring

/-- Value of the table after the first `m` harmonic passes, at any
in-range position `i < tableSize`: the partial additive sum. -/
theorem createWavetableAux_apply (sinf : ℚ → ℚ) (twoPi : ℚ) (tableSize : ℕ)
    (m i : ℕ) (hi : i < tableSize) :
    createWavetableAux sinf twoPi tableSize m i =
      ∑ k ∈ Finset.range m,
        sinf (angleSeq (twoPi / ((tableSize : ℚ) - 1) * ((harmonics.getD k 0 : ℕ) : ℚ)) i) /
          ((k : ℚ) + 1) := by
  induction m with
  | zero => simp [createWavetableAux]
  | succ m ih =>
    rw [Finset.sum_range_succ, ← ih]
    simp only [createWavetableAux, harmonicPass]
    rw [if_neg (Nat.ne_of_lt hi), if_pos hi]

/-- After any nonzero number of harmonic passes, the guard position
`tableSize` holds the same value as position `0`: each pass ends with
`samples[tableSize] = samples[0]`. -/
theorem createWavetableAux_guard (sinf : ℚ → ℚ) (twoPi : ℚ) (tableSize k : ℕ) :
    createWavetableAux sinf twoPi tableSize (k + 1) tableSize =
    createWavetableAux sinf twoPi tableSize (k + 1) 0 := by
  simp only [createWavetableAux, harmonicPass]
  by_cases h : (0:ℕ) = tableSize <;> simp [h]

/-! ### Claims about the oscillator and the voice transitions -/

/-- C1: at `currentIndex = 1/2` over the ramp wavetable `0,1,2,…`
(`tableSize = 4`), `getNextSample` returns `1` — always the second
bracketing sample, because the interpolation fraction is the literal `1`
in `value0 + 1 * (value1 - value0)` — whereas interpolating with the
actual fractional part `1/2` gives `value0 + 1/2 * (value1 - value0) = 1/2`. -/
theorem c1_getNextSample_constant_fraction :
    (getNextSample wtLin 4 { currentIndex := 1/2, tableDelta := 0 }).1 = wtLin 1 ∧
    wtLin 0 + (1/2) * (wtLin 1 - wtLin 0) = 1/2 ∧
    wtLin 1 ≠ ((1:ℚ)/2) := by
  refine ⟨?_, by norm_num [wtLin], by norm_num [wtLin]⟩
  norm_num [getNextSample, wtLin]

/-- C2 counterexample: on a voice that is already releasing
(`tailOff = 1 ≠ 0`), `stopNote` with `allowTailOff = true` is the
identity — the note is neither cleared nor is the voice made idle —
contradicting the claim's "otherwise it immediately clears the note and
transitions the voice to Idle". -/
theorem c2_stopNote_releasing_not_cleared :
    releasingVoice.tailOff ≠ 0 ∧
    stopNote true releasingVoice = releasingVoice ∧
    (stopNote true releasingVoice).currentNote = some 60 ∧
    (stopNote true releasingVoice).notePlaying = true := by
  refine ⟨by norm_num [releasingVoice], ?_, ?_, ?_⟩ <;>
    norm_num [stopNote, releasingVoice]

/-- C2 amended: `stopNote` sets `tailOff = 1` when `allowTailOff` is true
and the voice is not yet releasing; it leaves the state unchanged when
`allowTailOff` is true and the voice is already releasing; and it clears
the note and leaves `Playing` exactly when `allowTailOff` is false. -/
theorem c2_stopNote_cases (v : VoiceState) :
    (v.tailOff = 0 → stopNote true v = { v with tailOff := 1 }) ∧
    (v.tailOff ≠ 0 → stopNote true v = v) ∧
    stopNote false v = { v with currentNote := none, notePlaying := false } := by
  refine ⟨fun h => ?_, fun h => ?_, ?_⟩
  · simp [stopNote, clearCurrentNote, h]
  · simp [stopNote, clearCurrentNote, h]
  · simp [stopNote, clearCurrentNote]

/-- C2 amended, witness at the releasing voice. -/
theorem c2_stopNote_cases_witness :
    releasingVoice.tailOff ≠ 0 ∧ stopNote true releasingVoice = releasingVoice :=
  ⟨by norm_num [releasingVoice], (c2_stopNote_cases releasingVoice).2.1
    (by norm_num [releasingVoice])⟩

/-- C3 counterexample: from `currentIndex = 0 ∈ [0, 4)` with
`tableDelta = 9 ≥ 0` and `tableSize = 4`, one `getNextSample` call leaves
`currentIndex = 5`: the single subtraction of `tableSize` does not bring
the index back below `tableSize`. -/
theorem c3_wrap_escapes_interval :
    (0:ℚ) ≤ 0 ∧ (0:ℚ) < 4 ∧ (0:ℚ) ≤ 9 ∧
    (getNextSample wtLin 4 { currentIndex := 0, tableDelta := 9 }).2.currentIndex = 5 ∧
    ¬ ((5:ℚ) < 4) := by
  refine ⟨by norm_num, by norm_num, by norm_num, ?_, by norm_num⟩
  norm_num [getNextSample, wtLin]

/-- C3 amended: when additionally `tableDelta ≤ tableSize`, the advance
plus single-subtraction wrap of `getNextSample` keeps `currentIndex` in
the closed interval `[0, tableSize]`; the upper bound is not strict, since
the wrap test `>` leaves `currentIndex = tableSize` untouched when the
advance lands there exactly. -/
theorem c3_index_wrap_bounds (wt : ℕ → ℚ) (tableSize : ℕ) (o : OscState)
    (h0 : 0 ≤ o.currentIndex) (h1 : o.currentIndex < (tableSize : ℚ))
    (h2 : 0 ≤ o.tableDelta) (h3 : o.tableDelta ≤ (tableSize : ℚ)) :
    0 ≤ (getNextSample wt tableSize o).2.currentIndex ∧
    (getNextSample wt tableSize o).2.currentIndex ≤ (tableSize : ℚ) := by
  simp only [getNextSample]
  split_ifs with h <;> constructor <;> linarith

/-- C3 amended, witness at `currentIndex = 1/2`, `tableDelta = 2`,
`tableSize = 4`. -/
theorem c3_index_wrap_bounds_witness :
    0 ≤ (getNextSample wtLin 4 { currentIndex := 1/2, tableDelta := 2 }).2.currentIndex ∧
    (getNextSample wtLin 4 { currentIndex := 1/2, tableDelta := 2 }).2.currentIndex ≤ ((4:ℕ) : ℚ) :=
  c3_index_wrap_bounds wtLin 4 { currentIndex := 1/2, tableDelta := 2 }
    (by norm_num) (by norm_num) (by norm_num) (by norm_num)

/-- C4: a render call on a releasing voice (`tailOff > 0`, note playing)
writes exactly `tailCount` samples.  Written sample `j` adds
`oscSample j * level * (tailOff * 0.99^j)` — the oscillator output times
`level` times the `tailOff` already decayed `j` times — to every channel
at position `startSample + j`; after that `tailOff` has been multiplied
by `0.99` once per written sample.  Every position at or past
`startSample + tailCount` (in particular the rest of
`[startSample, startSample + numSamples)`) is untouched.  If the decayed
`tailOff` reaches `0.005` or below within the block (`tailStops`), the
note is cleared, the voice goes idle, and the decayed `tailOff` at the
stopping sample is indeed at or below the threshold, while every earlier
decayed value was above it — the voice stops as soon as the threshold is
hit, and `tailCount = numSamples` when it is never hit. -/
theorem c4_release_render (wt : ℕ → ℚ) (tableSize numChannels : ℕ)
    (v : VoiceState) (buf : ℕ → ℕ → ℚ) (startSample numSamples : ℕ)
    (hp : v.notePlaying = true) (ht : 0 < v.tailOff) :
    (∀ ch p, p < startSample ∨ startSample + tailCount v.tailOff numSamples ≤ p →
      (renderNextBlock wt tableSize numChannels v buf startSample numSamples).2 ch p =
        buf ch p) ∧
    (∀ j, j < tailCount v.tailOff numSamples → ∀ ch, ch < numChannels →
      (renderNextBlock wt tableSize numChannels v buf startSample numSamples).2 ch
          (startSample + j) =
        buf ch (startSample + j) +
          oscSample wt tableSize v.osc j * v.level * (v.tailOff * (99/100) ^ j)) ∧
    (renderNextBlock wt tableSize numChannels v buf startSample numSamples).1.tailOff =
      v.tailOff * (99/100) ^ tailCount v.tailOff numSamples ∧
    (tailStops v.tailOff numSamples = true →
      (renderNextBlock wt tableSize numChannels v buf
          startSample numSamples).1.notePlaying = false ∧
      (renderNextBlock wt tableSize numChannels v buf
          startSample numSamples).1.currentNote = none ∧
      v.tailOff * (99/100) ^ tailCount v.tailOff numSamples ≤ 5/1000) ∧
    (tailStops v.tailOff numSamples = false →
      tailCount v.tailOff numSamples = numSamples) ∧
    (∀ j, 0 < j → j < tailCount v.tailOff numSamples →
      ¬ (v.tailOff * (99/100) ^ j ≤ 5/1000)) ∧
    tailCount v.tailOff numSamples ≤ numSamples := by
  have hrb : renderNextBlock wt tableSize numChannels v buf startSample numSamples =
      renderTailLoop wt tableSize numChannels numSamples v buf startSample := by
    simp [renderNextBlock, hp, ht]
  obtain ⟨ha, hb, hc, hd⟩ :=
    renderTailLoop_spec wt tableSize numChannels numSamples v buf startSample
  rw [hrb]
  exact ⟨ha, hb, hc,
    fun h => ⟨(hd h).1, (hd h).2, tailStops_threshold _ _ h⟩,
    fun h => tailStops_false_count _ _ h,
    tailCount_minimal _ _,
    tailCount_le _ _⟩

/-- C4 witness: the releasing voice rendered into the zero buffer,
2 channels, positions `3` and `4` available. -/
theorem c4_release_render_witness :
    releasingVoice.notePlaying = true ∧ 0 < releasingVoice.tailOff ∧
    ((∀ ch p, p < 3 ∨ 3 + tailCount releasingVoice.tailOff 2 ≤ p →
      (renderNextBlock wtLin 4 2 releasingVoice zeroBuf 3 2).2 ch p = zeroBuf ch p) ∧
    (∀ j, j < tailCount releasingVoice.tailOff 2 → ∀ ch, ch < 2 →
      (renderNextBlock wtLin 4 2 releasingVoice zeroBuf 3 2).2 ch (3 + j) =
        zeroBuf ch (3 + j) +
          oscSample wtLin 4 releasingVoice.osc j * releasingVoice.level *
            (releasingVoice.tailOff * (99/100) ^ j)) ∧
    (renderNextBlock wtLin 4 2 releasingVoice zeroBuf 3 2).1.tailOff =
      releasingVoice.tailOff * (99/100) ^ tailCount releasingVoice.tailOff 2 ∧
    (tailStops releasingVoice.tailOff 2 = true →
      (renderNextBlock wtLin 4 2 releasingVoice zeroBuf 3 2).1.notePlaying = false ∧
      (renderNextBlock wtLin 4 2 releasingVoice zeroBuf 3 2).1.currentNote = none ∧
      releasingVoice.tailOff * (99/100) ^ tailCount releasingVoice.tailOff 2 ≤ 5/1000) ∧
    (tailStops releasingVoice.tailOff 2 = false →
      tailCount releasingVoice.tailOff 2 = 2) ∧
    (∀ j, 0 < j → j < tailCount releasingVoice.tailOff 2 →
      ¬ (releasingVoice.tailOff * (99/100) ^ j ≤ 5/1000)) ∧
    tailCount releasingVoice.tailOff 2 ≤ 2) :=
  ⟨rfl, by norm_num [releasingVoice],
    c4_release_render wtLin 4 2 releasingVoice zeroBuf 3 2 rfl
      (by norm_num [releasingVoice])⟩

/-- C5: for every in-range position `i < tableSize`, the built wavetable
holds the additive sum, over the configured harmonics `1,…,8`, of
`sin (twoPi * harmonic * i / (tableSize - 1))` divided by
`harmonicIndex + 1`, for any model `sinf` of `std::sin` and any value
`twoPi` of the two-pi constant; the construction is a pure function of
the harmonic configuration, hence deterministic. -/
theorem c5_wavetable_additive_sum (sinf : ℚ → ℚ) (twoPi : ℚ) (i : ℕ)
    (hi : i < SineWaveSound.tableSize) :
    createWavetable sinf twoPi SineWaveSound.tableSize i =
      ∑ k ∈ Finset.range harmonics.length,
        sinf (twoPi * ((harmonics.getD k 0 : ℕ) : ℚ) * (i : ℚ) /
            ((SineWaveSound.tableSize : ℚ) - 1)) / ((k : ℚ) + 1) := by
  rw [createWavetable, createWavetableAux_apply sinf twoPi _ _ i hi]
  refine Finset.sum_congr rfl fun k _ => ?_
  rw [angleSeq_eq]
  congr 1
  congr 1
  ring

/-- C5 witness at position `i = 0` with `sinf = id`, `twoPi = 7`. -/
theorem c5_wavetable_additive_sum_witness :
    0 < SineWaveSound.tableSize ∧
    createWavetable id 7 SineWaveSound.tableSize 0 =
      ∑ k ∈ Finset.range harmonics.length,
        id (7 * ((harmonics.getD k 0 : ℕ) : ℚ) * ((0:ℕ) : ℚ) /
            ((SineWaveSound.tableSize : ℚ) - 1)) / ((k : ℚ) + 1) :=
  ⟨by norm_num [SineWaveSound.tableSize],
   c5_wavetable_additive_sum id 7 0 (by norm_num [SineWaveSound.tableSize])⟩

/-- C6: after `createWavetable` finishes, the guard sample at position
`tableSize` equals the sample at position `0`, for any model of
`std::sin` and two-pi. -/
theorem c6_guard_equals_first (sinf : ℚ → ℚ) (twoPi : ℚ) :
    createWavetable sinf twoPi SineWaveSound.tableSize SineWaveSound.tableSize =
    createWavetable sinf twoPi SineWaveSound.tableSize 0 := by
  have h : harmonics.length = 7 + 1 := rfl
  rw [createWavetable, h]
  exact createWavetableAux_guard sinf twoPi SineWaveSound.tableSize 7

/-- C7: `startNote` on any prior voice state — playing, releasing or idle —
produces exactly the state with `level = velocity * 0.025`, `tailOff = 0`,
`notePlaying = true`, the started note recorded, oscillator phase
`currentIndex = 0` and `tableDelta = noteInHertz note * (tableSize / sampleRate)`. -/
theorem c7_startNote_resets (tableSize : ℕ) (note : ℕ) (velocity : ℚ)
    (noteInHertz : ℕ → ℚ) (sampleRate : ℚ) (v : VoiceState) :
    startNote tableSize note velocity noteInHertz sampleRate v =
      { level := velocity * (25/1000)
        tailOff := 0
        notePlaying := true
        currentNote := some note
        osc := { currentIndex := 0
                 tableDelta := noteInHertz note * ((tableSize : ℚ) / sampleRate) } } := by
  simp [startNote, setFrequency]

/-- C8: a render call only ever adds into the sub-range
`[startSample, startSample + numSamples)`: every buffer entry at a
position outside it is unchanged; at every entry the output is the old
value plus exactly what the same call would deposit into an all-zero
buffer (mixing is `+=`, never overwriting); and when the voice is idle
(`notePlaying = false`) the call returns voice state and buffer
unchanged. -/
theorem c8_render_additive_frame (wt : ℕ → ℚ) (tableSize numChannels : ℕ)
    (v : VoiceState) (buf : ℕ → ℕ → ℚ) (startSample numSamples : ℕ) :
    (∀ ch p, p < startSample ∨ startSample + numSamples ≤ p →
      (renderNextBlock wt tableSize numChannels v buf startSample numSamples).2 ch p =
        buf ch p) ∧
    (∀ ch p,
      (renderNextBlock wt tableSize numChannels v buf startSample numSamples).2 ch p =
        buf ch p +
          (renderNextBlock wt tableSize numChannels v (fun _ _ => 0)
            startSample numSamples).2 ch p) ∧
    (v.notePlaying = false →
      renderNextBlock wt tableSize numChannels v buf startSample numSamples = (v, buf)) := by
  refine ⟨?_, ?_, ?_⟩
  · intro ch p hp
    by_cases hn : v.notePlaying
    · by_cases ht : v.tailOff > 0
      · simp only [renderNextBlock, if_pos hn, if_pos ht]
        exact renderTailLoop_frame wt tableSize numChannels numSamples v buf
          startSample ch p hp
      · simp only [renderNextBlock, if_pos hn, if_neg ht]
        exact renderSustainLoop_frame wt tableSize numChannels numSamples v buf
          startSample ch p hp
    · simp [renderNextBlock, hn]
  · intro ch p
    by_cases hn : v.notePlaying
    · by_cases ht : v.tailOff > 0
      · simp only [renderNextBlock, if_pos hn, if_pos ht]
        exact renderTailLoop_additive wt tableSize numChannels numSamples v buf
          startSample ch p
      · simp only [renderNextBlock, if_pos hn, if_neg ht]
        exact renderSustainLoop_additive wt tableSize numChannels numSamples v buf
          startSample ch p
    · simp [renderNextBlock, hn]
  · intro h
    simp [renderNextBlock, h]

/-- C8 witness: the idle voice at `startSample = 0`, `numSamples = 3`. -/
theorem c8_render_additive_frame_witness :
    (∀ ch p, p < 0 ∨ 0 + 3 ≤ p →
      (renderNextBlock wtLin 4 2 idleVoice zeroBuf 0 3).2 ch p = zeroBuf ch p) ∧
    (∀ ch p, (renderNextBlock wtLin 4 2 idleVoice zeroBuf 0 3).2 ch p =
      zeroBuf ch p +
        (renderNextBlock wtLin 4 2 idleVoice (fun _ _ => 0) 0 3).2 ch p) ∧
    (idleVoice.notePlaying = false →
      renderNextBlock wtLin 4 2 idleVoice zeroBuf 0 3 = (idleVoice, zeroBuf)) :=
  c8_render_additive_frame wtLin 4 2 idleVoice zeroBuf 0 3

/-- C9: `stopNote` with `allowTailOff = false` on an idle voice — one with
`notePlaying = false` and no current note — returns the state unchanged in
every field. -/
theorem c9_stop_idle_noop (v : VoiceState)
    (h1 : v.notePlaying = false) (h2 : v.currentNote = none) :
    stopNote false v = v := by
  cases v
  simp_all [stopNote, clearCurrentNote]

/-- C9 witness at the idle voice. -/
theorem c9_stop_idle_noop_witness : stopNote false idleVoice = idleVoice :=
  c9_stop_idle_noop idleVoice (by norm_num [idleVoice]) (by norm_num [idleVoice])

/-- C10: `stopNote` with `allowTailOff = true` on a voice that is already
releasing (`tailOff > 0`) returns the state unchanged in every field:
`tailOff` is not reset to `1`, the note is kept, `notePlaying` stays. -/
theorem c10_stop_releasing_idempotent (v : VoiceState) (h : 0 < v.tailOff) :
    stopNote true v = v := by
  simp [stopNote, ne_of_gt h]

/-- C10 witness at the releasing voice. -/
theorem c10_stop_releasing_idempotent_witness :
    stopNote true releasingVoice = releasingVoice :=
  c10_stop_releasing_idempotent releasingVoice (by norm_num [releasingVoice])

end Synth
